import Mathlib

/-!
Verification of the utcore computational core: pose value type (utMath/Pose.h),
correlation (utCalibration/Correlation.cpp), k-means (utMath/Stochastic/k_means.h),
and the homography solvers exercised by tests/Calibration/HomographyTest.cpp.

Scalars of the C++ `double` code are embedded as exact rationals where the
computation is rational, and as real numbers where square roots occur.
C++ methods are embedded in state-passing style: a method call on a `Pose`
receiver returns the pair (result, post-state of the receiver), so that
in-place mutation of the receiver is visible in the embedding.
-/

open Matrix

namespace Ubitrack

/-- Component form of `Ubitrack::Math::Quaternion` (an external collaborator of
the pose type per the spec; only its component order and algebra matter here). -/
structure Quat where
  x : ℚ
  y : ℚ
  z : ℚ
  w : ℚ
deriving DecidableEq

/-- A 3-vector of doubles, `Ubitrack::Math::Vector< double, 3 >`. -/
structure Vec3Q where
  x : ℚ
  y : ℚ
  z : ℚ
deriving DecidableEq

/-- Hamilton product of two quaternions (collaborator algebra). -/
def quatMul (p q : Quat) : Quat :=
  ⟨p.w * q.x + p.x * q.w + p.y * q.z - p.z * q.y,
   p.w * q.y - p.x * q.z + p.y * q.w + p.z * q.x,
   p.w * q.z + p.x * q.y - p.y * q.x + p.z * q.w,
   p.w * q.w - p.x * q.x - p.y * q.y - p.z * q.z⟩

/-- Quaternion conjugate (collaborator algebra). -/
def quatConj (q : Quat) : Quat := ⟨-q.x, -q.y, -q.z, q.w⟩

/-- Rotation of a vector by a quaternion: the vector part of `q * (v,0) * q^*`
(the `r x r^*` action documented at Pose.h lines 144-145). -/
def quatRotate (q : Quat) (v : Vec3Q) : Vec3Q :=
  let r := quatMul (quatMul q ⟨v.x, v.y, v.z, 0⟩) (quatConj q)
  ⟨r.x, r.y, r.z⟩

/-- Componentwise vector addition (collaborator algebra). -/
def vadd (a b : Vec3Q) : Vec3Q := ⟨a.x + b.x, a.y + b.y, a.z + b.z⟩

/-- Componentwise vector negation (collaborator algebra). -/
def vneg (a : Vec3Q) : Vec3Q := ⟨-a.x, -a.y, -a.z⟩

/-- `Ubitrack::Math::Pose` (Pose.h): a rotation quaternion plus a translation
vector. -/
structure Pose where
  rotation : Quat
  translation : Vec3Q
deriving DecidableEq

/-- `Pose::operator*( const Vector< double, 3 >& ) const` (Pose.h line 140):
transform a vector by the pose, `x_A = r x_B r^* + t` per the documented
semantics. The method is declared `const`, so the post-state of the receiver
is the receiver itself. -/
def Pose.mulVec (p : Pose) (v : Vec3Q) : Vec3Q × Pose :=
  (vadd (quatRotate p.rotation v) p.translation, p)

/-- `Pose::operator*( const Pose& ) const` (Pose.h line 149): pose composition
by quaternion/vector composition. `const` method: the receiver is unchanged. -/
def Pose.mulPose (p q : Pose) : Pose × Pose :=
  (⟨quatMul p.rotation q.rotation,
    vadd (quatRotate p.rotation q.translation) p.translation⟩, p)

/-- `Pose::operator~() const` (Pose.h line 155): pose inversion. `const`
method: the receiver is unchanged. -/
def Pose.invPose (p : Pose) : Pose × Pose :=
  (⟨quatConj p.rotation, vneg (quatRotate (quatConj p.rotation) p.translation)⟩, p)

/-- `Pose::toVector` (Pose.h lines 115-123): store the pose in a vector with
the documented order tx, ty, tz, qx, qy, qz, qw; translation goes to
components 0-2 (`vector_cast_assign` on the range (0,3)) and the quaternion to
components 3-6 (`Quaternion::toVector` on the range (3,7); the quaternion
component order qx, qy, qz, qw is as documented at Pose.h line 113). -/
def Pose.toVector (p : Pose) : List ℚ :=
  [p.translation.x, p.translation.y, p.translation.z,
   p.rotation.x, p.rotation.y, p.rotation.z, p.rotation.w]

/-- `Pose::toVector` as a method call on the receiver: it is `const`, so the
post-state of the receiver is the receiver itself. -/
def Pose.toVectorOp (p : Pose) : List ℚ × Pose := (p.toVector, p)

/-- `Pose::fromVector` (Pose.h lines 129-131): rebuild a pose from components
0-2 (translation) and 3-6 (quaternion x, y, z, w). -/
def Pose.fromVector (v : List ℚ) : Pose :=
  ⟨⟨v.getD 3 0, v.getD 4 0, v.getD 5 0, v.getD 6 0⟩,
   ⟨v.getD 0 0, v.getD 1 0, v.getD 2 0⟩⟩

/-- `Pose::scalePose` (Pose.h lines 88-95): a non-`const`, `void` method that
multiplies each translation component of the receiver by the scaling factor in
place. The embedding returns (unit result, post-state of the receiver). -/
def Pose.scalePose (p : Pose) (scalingFactor : ℚ) : Unit × Pose :=
  ((), ⟨p.rotation,
        ⟨p.translation.x * scalingFactor,
         p.translation.y * scalingFactor,
         p.translation.z * scalingFactor⟩⟩)

/-- `computeCorrelationDirect` (Correlation.cpp lines 18-36): sums of products
and of squares over the common prefix of the two inputs, then the unguarded
division `res / denom` with `denom = sqrt(var1*var2)`. A zero `denom` makes the
double division produce a non-finite value; the embedding returns `none` there
and `some` of the quotient otherwise. -/
noncomputable def computeCorrelationDirect (left right : List ℝ) : Option ℝ :=
  let len := min left.length right.length
  let l := left.take len
  let r := right.take len
  let res := (List.zipWith (fun a b => a * b) l r).sum
  let var1 := (l.map fun a => a * a).sum
  let var2 := (r.map fun a => a * a).sum
  let denom := Real.sqrt (var1 * var2)
  if denom = 0 then none else some (res / denom)

/-- `computeCorrelation` (Correlation.cpp lines 38-46): returns 1.0 when both
inputs are empty and otherwise delegates to `computeCorrelationDirect`. -/
noncomputable def computeCorrelation (left right : List ℝ) : Option ℝ :=
  if left.length = 0 ∧ right.length = 0 then some 1
  else computeCorrelationDirect left right

/-- Squared euclidean distance between two coordinate lists, the
`SquaredDistance` functor the outer `k_means` passes to the inner one
(k_means.h line 399). -/
def sqDist (a b : List ℚ) : ℚ :=
  ((List.zipWith (fun x y => x - y) a b).map fun d => d * d).sum

/-- Tail of the `assign_indices` loop (k_means.h lines 95-108): scans the
remaining means, keeping the index of the first minimal distance (only a
strictly smaller distance updates the running minimum). -/
def assignGo (v : List ℚ) (means : List (List ℚ)) (d : ℚ) (k kNow : Nat) : Nat :=
  match means with
  | [] => k
  | m :: ms =>
    if sqDist v m < d then assignGo v ms (sqDist v m) kNow (kNow + 1)
    else assignGo v ms d k (kNow + 1)

/-- `assign_indices::operator()` (k_means.h lines 85-109): index of the mean
nearest to `v`. The C++ functor dereferences the first mean unconditionally;
with no means the embedding returns index 0. -/
def assignIndex (means : List (List ℚ)) (v : List ℚ) : Nat :=
  match means with
  | [] => 0
  | m :: ms => assignGo v ms (sqDist v m) 0 1

/-- One pass of mean re-estimation (k_means.h lines 312-321): for each cluster
`k`, sum the input vectors assigned to `k` (`k_means_accumulate` with
`assign_to_mean`) starting from the zero vector, then divide componentwise by
`std::count` of the indices equal to `k`. Rational division by a zero count
yields the junk value 0 where the C++ double division yields a non-finite
value; the iteration-count claim is independent of this value. -/
def stepMeans (d : Nat) (points : List (List ℚ)) (indices : List Nat)
    (nCluster : Nat) : List (List ℚ) :=
  (List.range nCluster).map fun k =>
    let acc := ((points.zip indices).filter fun pi => pi.2 = k).foldl
      (fun s pi => List.zipWith (fun a b => a + b) s pi.1) (List.replicate d 0)
    let cnt : ℚ := (((indices.filter fun i => i = k).length : Nat) : ℚ)
    acc.map fun a => a / cnt

/-- The quadratic convergence threshold of the inner `k_means`
(k_means.h line 291): `pow(1e-02, 2)`. -/
def kMeansEpsilon : ℚ := (1 / 100) * (1 / 100)

/-- `max_iter` of the inner `k_means` refinement loop (k_means.h line 292). -/
def kMeansMaxIter : Nat := 100

/-- Result of the inner `k_means`: final means, final indices, the returned
`diff_error`, and (as instrumentation for the termination claim) the number of
loop iterations that were executed. -/
structure KMeansResult where
  means : List (List ℚ)
  indices : List Nat
  diff : ℚ
  iter : Nat
deriving DecidableEq

/-- The refinement loop of the inner `k_means` (k_means.h lines 307-337),
expressed as fuel recursion on the remaining iteration count: each round
re-estimates the means (`stepMeans`), computes the mean summarized difference
`diff_error`, re-assigns the indices, and stops early when
`diff_error < epsilon`. -/
def kMeansLoop (d : Nat) (points : List (List ℚ)) (nCluster : Nat) :
    Nat → List (List ℚ) → List Nat → ℚ → KMeansResult
  | 0, means, indices, lastDiff => ⟨means, indices, lastDiff, 0⟩
  | fuel + 1, means, indices, _ =>
    let means' := stepMeans d points indices nCluster
    let diff := (List.zipWith sqDist means means').sum / (nCluster : ℚ)
    let indices' := points.map (assignIndex means')
    if diff < kMeansEpsilon then ⟨means', indices', diff, 1⟩
    else
      let r := kMeansLoop d points nCluster fuel means' indices' diff
      ⟨r.means, r.indices, r.diff, r.iter + 1⟩

/-- The inner `k_means` (k_means.h lines 271-344): assign indices once from the
initial means, then run the refinement loop for at most `max_iter = 100`
iterations. `d` is the vector dimension (used to build the zero vectors of
`vector_out_type::zeros()`); the cluster count is the length of the initial
means range, `std::distance(itMeanBegin, itMeanEnd)`. -/
def k_means (d : Nat) (points : List (List ℚ)) (means0 : List (List ℚ)) :
    KMeansResult :=
  let indices0 := points.map (assignIndex means0)
  kMeansLoop d points means0.length kMeansMaxIter means0 indices0 0

/-- A 3x3 matrix of exact rationals. -/
abbrev Mat3Q := Matrix (Fin 3) (Fin 3) ℚ

/-- Dot product of two coefficient lists. -/
def dotL (a b : List ℚ) : ℚ := (List.zipWith (fun x y => x * y) a b).sum

/-- First row of an augmented linear system whose leading coefficient is
nonzero, together with the remaining rows in their original order; `none` when
every leading coefficient is zero. -/
def pickRow : List (List ℚ × ℚ) → Option ((List ℚ × ℚ) × List (List ℚ × ℚ))
  | [] => none
  | r :: rs =>
    match r.1 with
    | [] => none
    | c :: _ =>
      if c ≠ 0 then some (r, rs)
      else
        match pickRow rs with
        | none => none
        | some (p, rest) => some (p, r :: rest)

/-- Eliminate the leading unknown of `row` using the pivot row `piv` (whose
leading coefficient is nonzero), dropping that leading column. -/
def reduceRow (piv row : List ℚ × ℚ) : List ℚ × ℚ :=
  match piv.1, row.1 with
  | p :: ps, c :: cs =>
    (List.zipWith (fun a b => b - c / p * a) ps cs, row.2 - c / p * piv.2)
  | _, _ => ([], 0)

/-- Exact Gaussian elimination with back substitution for a linear system of
`n` unknowns given as augmented rows (coefficients, right-hand side); `none`
when no pivot can be found for some unknown (singular system). -/
def gaussSolve : Nat → List (List ℚ × ℚ) → Option (List ℚ)
  | 0, _ => some []
  | n + 1, rows =>
    match pickRow rows with
    | none => none
    | some (piv, rest) =>
      match gaussSolve n (rest.map (reduceRow piv)) with
      | none => none
      | some xs =>
        match piv.1 with
        | [] => none
        | p :: ps => some ((piv.2 - dotL ps xs) / p :: xs)

/-- The canonical unit-square corners that `squareHomography` implicitly uses
as source points, in the winding order fixed by the repository's own test
(HomographyTest.cpp lines 24-29 and 39-44, `stdCorners[i] =
((i and 2) ? 0.5 : -0.5, ((i+1) and 2) ? -0.5 : 0.5)`), which the test then
requires to be mapped to themselves by the identity result. -/
def squareCorners : List (ℚ × ℚ) :=
  [(-(1 / 2 : ℚ), 1 / 2), (-(1 / 2), -(1 / 2)), (1 / 2, -(1 / 2)), (1 / 2, 1 / 2)]

/-- The fixed-structure 8x8 augmented system for the square homography: for
source corner `s` and destination `d`, the two rows of the projective
correspondence constraint with the bottom-right entry of `H` fixed to 1. -/
def squareHomographyRows (dst : List (ℚ × ℚ)) : List (List ℚ × ℚ) :=
  (squareCorners.zip dst).foldr
    (fun sd acc =>
      ([sd.1.1, sd.1.2, 1, 0, 0, 0, -(sd.2.1 * sd.1.1), -(sd.2.1 * sd.1.2)], sd.2.1) ::
      ([0, 0, 0, sd.1.1, sd.1.2, 1, -(sd.2.2 * sd.1.1), -(sd.2.2 * sd.1.2)], sd.2.2) :: acc)
    []

/-- Modelled from the spec: `squareHomography` (spec name
`solveSquareHomography`; its implementation file is absent from the sample,
only its test is present). Per spec section 4.1 it maps the implicit canonical
unit square, in the fixed winding order pinned down by the test, to the four
given destination points by solving a fixed-structure 8x8 linear system, with
the matrix normalized so its bottom-right entry is 1; a singular system (the
destination points degenerate) is the `DegenerateConfiguration` failure,
embedded as `none`. -/
def squareHomography (corners : List (ℚ × ℚ)) : Option Mat3Q :=
  if corners.length < 4 then none
  else
    match gaussSolve 8 (squareHomographyRows (corners.take 4)) with
    | none => none
    | some h =>
      some (Matrix.of
        ![![h.getD 0 0, h.getD 1 0, h.getD 2 0],
          ![h.getD 3 0, h.getD 4 0, h.getD 5 0],
          ![h.getD 6 0, h.getD 7 0, 1]])

/-- Whether three points are collinear (zero cross product of differences). -/
def collinearTriple (p q r : ℚ × ℚ) : Bool :=
  if (q.1 - p.1) * (r.2 - p.2) - (q.2 - p.2) * (r.1 - p.1) = 0 then true
  else false

/-- Whether all points of the list lie on one line. -/
def allCollinear (pts : List (ℚ × ℚ)) : Bool :=
  pts.all fun p => pts.all fun q => pts.all fun r => collinearTriple p q r

/-- The 2Nx9 DLT coefficient matrix (spec section 4.2 step 2): for each
correspondence, two rows of the cross-product constraint
`dst x (H src) = 0` on the flattened unknowns of `H`. -/
def dltRows (src dst : List (ℚ × ℚ)) : List (List ℚ) :=
  (src.zip dst).foldr
    (fun sd acc =>
      [0, 0, 0, -sd.1.1, -sd.1.2, -1, sd.2.2 * sd.1.1, sd.2.2 * sd.1.2, sd.2.2] ::
      [sd.1.1, sd.1.2, 1, 0, 0, 0, -(sd.2.1 * sd.1.1), -(sd.2.1 * sd.1.2), -sd.2.1] :: acc)
    []

/-- First row of a homogeneous system whose leading coefficient is nonzero,
with the remaining rows; `none` when the whole leading column is zero. -/
def pickRowH : List (List ℚ) → Option (List ℚ × List (List ℚ))
  | [] => none
  | r :: rs =>
    match r with
    | [] => none
    | c :: _ =>
      if c ≠ 0 then some (r, rs)
      else
        match pickRowH rs with
        | none => none
        | some (p, rest) => some (p, r :: rest)

/-- Column-by-column echelon pass over a homogeneous system with `m` columns:
for each column, either the normalized tail of a pivot row (`some`), or `none`
when the column carries no pivot (a free unknown). -/
def echelon : Nat → List (List ℚ) → List (Option (List ℚ))
  | 0, _ => []
  | m + 1, rows =>
    match pickRowH rows with
    | none => none :: echelon m (rows.map (List.drop 1))
    | some (piv, rest) =>
      match piv with
      | [] => none :: echelon m (rows.map (List.drop 1))
      | p :: ps =>
        let pivN := ps.map fun a => a / p
        some pivN ::
          echelon m (rest.map fun r =>
            match r with
            | [] => []
            | c :: cs => List.zipWith (fun a b => b - c * a) pivN cs)

/-- Back substitution producing a null vector from an echelon pass: the free
unknown at (signed) position `freePos` is set to 1, later free unknowns to 0,
and each pivot unknown to the negated combination of the unknowns after it. -/
def buildSol : List (Option (List ℚ)) → Int → List ℚ
  | [], _ => []
  | o :: rest, freePos =>
    let xs := buildSol rest (freePos - 1)
    match o with
    | none => (if freePos = 0 then 1 else 0) :: xs
    | some coeffs => -dotL coeffs xs :: xs

/-- Position of the first pivot-free column of an echelon pass, if any. -/
def firstFree : List (Option (List ℚ)) → Option Nat
  | [] => none
  | none :: _ => some 0
  | some _ :: rest => (firstFree rest).map (· + 1)

/-- A nonzero exact null vector of a homogeneous system with 9 columns, when
the coefficient matrix is rank deficient; `none` at full column rank. -/
def nullVector (rows : List (List ℚ)) : Option (List ℚ) :=
  let cols := echelon 9 rows
  match firstFree cols with
  | none => none
  | some j => some (buildSol cols (j : Int))

/-- The typed failures of `homographyDLT` (spec sections 4.2 and 7). -/
inductive HomographyError where
  | insufficientCorrespondences
  | degenerateConfiguration
deriving DecidableEq

/-- Modelled from the spec: `homographyDLT` (spec name `solveHomographyDLT`;
its implementation file is absent from the sample, only its test is present).
Guards per spec section 4.2: fewer than 4 correspondences fail with
`InsufficientCorrespondences`; collinear source points are the rank-deficient
degenerate configuration and fail with `DegenerateConfiguration` (the spec's
"equivalent conditioning check" for the configurations the claims exercise).
The success branch is the exact-arithmetic counterpart of the spec's SVD
null-space extraction: the exact null vector of the 2Nx9 constraint matrix,
reshaped row-major into `H`. The spec's normalization/denormalization
conditioning (similarity transforms on either side) does not change the exact
rank or the recovered projective map and is omitted in exact arithmetic;
correspondence sets admitting no exact homography (full column rank, which for
the real code means a noisy least-squares solve) are outside the exact model
and are mapped to `DegenerateConfiguration` as well. -/
def homographyDLT (src dst : List (ℚ × ℚ)) : Except HomographyError Mat3Q :=
  if min src.length dst.length < 4 then .error .insufficientCorrespondences
  else if allCollinear src then .error .degenerateConfiguration
  else
    match nullVector (dltRows src dst) with
    | some h =>
      .ok (Matrix.of
        ![![h.getD 0 0, h.getD 1 0, h.getD 2 0],
          ![h.getD 3 0, h.getD 4 0, h.getD 5 0],
          ![h.getD 6 0, h.getD 7 0, h.getD 8 0]])
    | none => .error .degenerateConfiguration

/-- The first DLT constraint row contributed by the correspondence `sd`
(named form of the rows built by `dltRows`). -/
def dltRowA (sd : (ℚ × ℚ) × (ℚ × ℚ)) : List ℚ :=
  [0, 0, 0, -sd.1.1, -sd.1.2, -1, sd.2.2 * sd.1.1, sd.2.2 * sd.1.2, sd.2.2]

/-- The second DLT constraint row contributed by the correspondence `sd`. -/
def dltRowB (sd : (ℚ × ℚ) × (ℚ × ℚ)) : List ℚ :=
  [sd.1.1, sd.1.2, 1, 0, 0, 0, -(sd.2.1 * sd.1.1), -(sd.2.1 * sd.1.2), -sd.2.1]

/-- Homogeneous coordinates of a planar point, `(x, y, 1)`. -/
def hatQ (p : ℚ × ℚ) : Fin 3 → ℚ := ![p.1, p.2, 1]

/-- The image of a planar point under the homography `H` after perspective
division (the way the tests build correspondences,
HomographyTest.cpp lines 91-96). -/
def projImage (H : Mat3Q) (p : ℚ × ℚ) : ℚ × ℚ :=
  ((H *ᵥ hatQ p) 0 / (H *ᵥ hatQ p) 2, (H *ᵥ hatQ p) 1 / (H *ᵥ hatQ p) 2)

/-- The rational matrix whose columns are `a`, `b`, `c`. -/
def colMatrixQ (a b c : Fin 3 → ℚ) : Mat3Q :=
  Matrix.of ![![a 0, b 0, c 0], ![a 1, b 1, c 1], ![a 2, b 2, c 2]]

/-- Row-major reshaping of a coefficient list into a 3x3 matrix (the reshape
`homographyDLT` applies to the extracted null vector). -/
def listToMat (h : List ℚ) : Mat3Q :=
  Matrix.of
    ![![h.getD 0 0, h.getD 1 0, h.getD 2 0],
      ![h.getD 3 0, h.getD 4 0, h.getD 5 0],
      ![h.getD 6 0, h.getD 7 0, h.getD 8 0]]

/-- Row-major flattening of a 3x3 matrix into the 9 DLT unknowns. -/
def vecOfMat (H : Mat3Q) : List ℚ :=
  [H 0 0, H 0 1, H 0 2, H 1 0, H 1 1, H 1 2, H 2 0, H 2 1, H 2 2]

/-- A 3x3 real matrix. -/
abbrev Mat3 := Matrix (Fin 3) (Fin 3) ℝ

/-- A real 3-vector. -/
abbrev Vec3 := Fin 3 → ℝ

/-- Euclidean norm of a 3-vector. -/
noncomputable def nrm (v : Vec3) : ℝ := Real.sqrt (v ⬝ᵥ v)

/-- Normalization of a vector to unit length. -/
noncomputable def unitize (v : Vec3) : Vec3 := (nrm v)⁻¹ • v

/-- Column `j` of a matrix, as a vector. -/
def colv (A : Mat3) (j : Fin 3) : Vec3 := fun i => A i j

/-- The matrix whose columns are `u`, `v`, `w`. -/
def colMatrix (u v w : Vec3) : Mat3 :=
  Matrix.of ![![u 0, v 0, w 0], ![u 1, v 1, w 1], ![u 2, v 2, w 2]]

/-- Negate the first two columns of a matrix (the simultaneous sign flip of
`r1`, `r2` in the positive-depth disambiguation, spec section 4.3 step 7). -/
def negCols01 (A : Mat3) : Mat3 :=
  Matrix.of fun i j => if j = 2 then A i j else -A i j

/-- `M = invK * H`, spec section 4.3 step 1. -/
noncomputable def Mof (H invK : Mat3) : Mat3 := invK * H

/-- `r1` before orthogonalization: the first column of `M` scaled to unit
length (spec section 4.3 steps 2-3, with `lambda = 1 / norm(M_col0)`). -/
noncomputable def aVec (M : Mat3) : Vec3 := unitize (colv M 0)

/-- `r2` before orthogonalization: the second column of `M` scaled by the
same `lambda` (spec section 4.3 steps 2-3). -/
noncomputable def bVec (M : Mat3) : Vec3 := (nrm (colv M 0))⁻¹ • colv M 1

/-- First axis of the symmetric (average-and-cross-product) orthogonalization
of spec section 4.3 step 3: the normalized bisector of `r1`, `r2`. -/
noncomputable def cVec (M : Mat3) : Vec3 := unitize (aVec M + bVec M)

/-- Unnormalized second axis of the symmetric orthogonalization: the cross
product of the bisector with the normal `r1 x r2` of the `(r1, r2)` plane. -/
noncomputable def dRaw (M : Mat3) : Vec3 :=
  crossProduct (cVec M) (crossProduct (aVec M) (bVec M))

/-- Normalized second axis of the symmetric orthogonalization. -/
noncomputable def dVec (M : Mat3) : Vec3 := unitize (dRaw M)

/-- Orthogonalized `r1 = (c + d) / sqrt 2`: the symmetric correction
distributes the error between `r1` and `r2` (spec section 4.3 step 3). -/
noncomputable def r1Vec (M : Mat3) : Vec3 :=
  (Real.sqrt 2)⁻¹ • (cVec M + dVec M)

/-- Orthogonalized `r2 = (c - d) / sqrt 2`. -/
noncomputable def r2Vec (M : Mat3) : Vec3 :=
  (Real.sqrt 2)⁻¹ • (cVec M - dVec M)

/-- Translation `t = lambda * M_col2` (spec section 4.3 step 6). -/
noncomputable def tVecM (M : Mat3) : Vec3 := (nrm (colv M 0))⁻¹ • colv M 2

/-- Spec section 4.3 steps 4-5: assemble `R = [r1 r2 r3]` with
`r3 = r1 x r2`, negating `r3` when `det R < 0`. -/
noncomputable def rotCandidate (M : Mat3) : Mat3 :=
  let R0 := colMatrix (r1Vec M) (r2Vec M) (crossProduct (r1Vec M) (r2Vec M))
  if R0.det < 0 then
    colMatrix (r1Vec M) (r2Vec M) (-crossProduct (r1Vec M) (r2Vec M))
  else R0

/-- The typed failures of `poseFromHomography` (spec sections 4.3 and 7). -/
inductive PoseError where
  | singularIntrinsics
  | degenerateHomography

/-- Modelled from the spec: `poseFromHomography` (utCalibration
2D3DPoseEstimation; its implementation file is absent from the sample, only
its test is present). Steps per spec section 4.3: `M = invK * H`; fail with
`SingularIntrinsics` for a non-invertible `invK` and with
`DegenerateHomography` when a normalization denominator vanishes (exact-zero
is the exact-arithmetic counterpart of the spec's "near-zero" conditioning
failures); scale by `lambda = 1 / norm(M_col0)`; symmetrically re-orthogonalize
`r1`, `r2`; take `r3 = r1 x r2`; negate `r3` if `det R < 0`; and resolve the
overall sign so the depth component of `t` is positive, negating `r1`, `r2`
and `t` together otherwise. The rotation is returned in matrix form; the final
conversion of the orthonormal `R` to a unit quaternion is the external
collaborator interface of spec section 6 and is the identity on the matrix
form of the rotation. -/
noncomputable def poseFromHomography (H invK : Mat3) :
    Except PoseError (Mat3 × Vec3) :=
  if invK.det = 0 then .error .singularIntrinsics
  else if nrm (colv (Mof H invK) 0) = 0 then .error .degenerateHomography
  else if nrm (aVec (Mof H invK) + bVec (Mof H invK)) = 0 then
    .error .degenerateHomography
  else if nrm (dRaw (Mof H invK)) = 0 then .error .degenerateHomography
  else if tVecM (Mof H invK) 2 < 0 then
    .ok (negCols01 (rotCandidate (Mof H invK)), -tVecM (Mof H invK))
  else .ok (rotCandidate (Mof H invK), tVecM (Mof H invK))

/-! ## Theorems -/

/-- C8: `Pose::scalePose` multiplies each of the three translation components
of the receiver by the scaling factor and leaves the rotation quaternion
unchanged; no field other than the translation is modified (the whole
post-state is the original rotation with the scaled translation). -/
theorem scalePose_scales_translation_only (p : Pose) (s : ℚ) :
    (p.scalePose s).2.rotation = p.rotation ∧
    (p.scalePose s).2.translation =
      ⟨p.translation.x * s, p.translation.y * s, p.translation.z * s⟩ :=
  ⟨rfl, rfl⟩

/-- C6 counterexample: `scalePose` is a public operation that does mutate its
receiver in place, so a `Pose` is not immutable once constructed: scaling the
pose with translation (1,1,1) by 2 leaves the receiver in a state different
from its original value. -/
theorem scalePose_mutates_receiver :
    ((Pose.mk ⟨0, 0, 0, 1⟩ ⟨1, 1, 1⟩).scalePose 2).2 ≠
      Pose.mk ⟨0, 0, 0, 1⟩ ⟨1, 1, 1⟩ := by
  norm_num [Pose.scalePose]

/-- C6 amended: every public operation on a `Pose` other than `scalePose` -
multiplication by a vector, multiplication by a pose, inversion, and
conversion to a vector - leaves the receiver's rotation and translation
unchanged and produces its result as a new value, while `scalePose` mutates
the receiver in place, scaling the translation and leaving the rotation
unchanged. -/
theorem pose_receiver_mutation (p q : Pose) (v : Vec3Q) (s : ℚ) :
    (p.mulVec v).2 = p ∧ (p.mulPose q).2 = p ∧ p.invPose.2 = p ∧
    p.toVectorOp.2 = p ∧ (p.scalePose s).2.rotation = p.rotation :=
  ⟨rfl, rfl, rfl, rfl, rfl⟩

/-- C7: `Pose::toVector` writes translation x, y, z into components 0-2 and
quaternion x, y, z, w into components 3-6, and `Pose::fromVector` applied to
that vector reconstructs the original pose. -/
theorem pose_vector_round_trip (p : Pose) :
    p.toVector = [p.translation.x, p.translation.y, p.translation.z,
      p.rotation.x, p.rotation.y, p.rotation.z, p.rotation.w] ∧
    Pose.fromVector p.toVector = p :=
  ⟨rfl, rfl⟩

/-- C9: `computeCorrelation` returns exactly 1.0 when both inputs are empty,
and the unguarded division `res / denom` of `computeCorrelationDirect` is
reachable with `denom = 0` through the public `computeCorrelation` entry
point: with exactly one input empty ( `[1]` against `[]` ), and with one
input all zero over the common prefix ( `[0]` against `[1]` ), the zero
denominator makes the division produce a non-finite value (embedded `none`). -/
theorem correlation_empty_and_division_by_zero :
    computeCorrelation [] [] = some 1 ∧
    computeCorrelation [1] [] = none ∧
    computeCorrelation [0] [1] = none := by
  refine ⟨?_, ?_, ?_⟩
  · simp [computeCorrelation]
  · simp [computeCorrelation, computeCorrelationDirect]
  · norm_num [computeCorrelation, computeCorrelationDirect]

/-- The refinement loop of the inner `k_means` executes at most `fuel`
iterations, and exits below the fuel bound only after an iteration whose mean
summarized difference fell below epsilon. -/
theorem kMeansLoop_iter_le (d : Nat) (points : List (List ℚ)) (nc : Nat)
    (fuel : Nat) :
    ∀ (means : List (List ℚ)) (indices : List Nat) (last : ℚ),
      (kMeansLoop d points nc fuel means indices last).iter ≤ fuel ∧
      ((kMeansLoop d points nc fuel means indices last).iter < fuel →
        (kMeansLoop d points nc fuel means indices last).diff < kMeansEpsilon) := by
  induction fuel with
  | zero =>
    intro means indices last
    constructor
    · simp [kMeansLoop]
    · intro hlt
      simp [kMeansLoop] at hlt
  | succ n ih =>
    intro means indices last
    unfold kMeansLoop
    dsimp only
    split
    · next hdiff =>
      exact ⟨Nat.succ_le_succ (Nat.zero_le n), fun _ => hdiff⟩
    · next hdiff =>
      refine ⟨Nat.succ_le_succ (ih _ _ _).1, fun hlt => (ih _ _ _).2 ?_⟩
      exact Nat.lt_of_succ_lt_succ hlt

/-- C10: under the precondition `n > n_cluster` asserted by the source, the
refinement loop inside `k_means` executes at most `max_iter = 100` iterations,
stopping below that bound only when the mean summarized difference has fallen
below epsilon; `k_means` is a total function (the embedding of its bounded
`for` loop is structural recursion on the remaining iteration count). -/
theorem k_means_iteration_bound (d : Nat) (points means0 : List (List ℚ))
    (_h : means0.length < points.length) :
    (k_means d points means0).iter ≤ kMeansMaxIter ∧
    ((k_means d points means0).iter < kMeansMaxIter →
      (k_means d points means0).diff < kMeansEpsilon) := by
  unfold k_means
  exact kMeansLoop_iter_le d points means0.length kMeansMaxIter _ _ _

/-- C10 witness: three 1-dimensional points and one initial mean satisfy the
precondition, and the loop obeys the 100-iteration bound there. -/
theorem k_means_iteration_bound_witness :
    [[(0 : ℚ)]].length < [[(0 : ℚ)], [1], [2]].length ∧
    (k_means 1 [[(0 : ℚ)], [1], [2]] [[(0 : ℚ)]]).iter ≤ kMeansMaxIter :=
  ⟨by decide, (k_means_iteration_bound 1 [[(0 : ℚ)], [1], [2]] [[(0 : ℚ)]]
    (by decide)).1⟩

/-- C4: `homographyDLT` with fewer than 4 correspondences fails with
`InsufficientCorrespondences`, and with 4 or more correspondences whose
source points are collinear it fails with `DegenerateConfiguration`; in
neither case does it return a homography matrix (an `Except.error` is never an
`Except.ok`). -/
theorem homographyDLT_rejects_degenerate_input (src dst : List (ℚ × ℚ)) :
    (min src.length dst.length < 4 →
      homographyDLT src dst = .error .insufficientCorrespondences) ∧
    (4 ≤ min src.length dst.length → allCollinear src = true →
      homographyDLT src dst = .error .degenerateConfiguration) := by
  constructor
  · intro h
    simp [homographyDLT, h]
  · intro h hc
    simp [homographyDLT, Nat.not_lt.mpr h, hc]

/-- C4 witness: three correspondences are rejected as insufficient, and four
collinear source points are rejected as a degenerate configuration. -/
theorem homographyDLT_rejects_degenerate_input_witness :
    homographyDLT [((0 : ℚ), (0 : ℚ)), (1, 0), (0, 1)]
        [((0 : ℚ), (0 : ℚ)), (1, 0), (0, 1)] =
      .error .insufficientCorrespondences ∧
    homographyDLT [((0 : ℚ), (0 : ℚ)), (1, 0), (2, 0), (3, 0)]
        [((0 : ℚ), (1 : ℚ)), (1, 1), (2, 3), (3, 4)] =
      .error .degenerateConfiguration :=
  ⟨(homographyDLT_rejects_degenerate_input _ _).1 (by norm_num),
   (homographyDLT_rejects_degenerate_input _ _).2 (by norm_num)
     (by norm_num [allCollinear, collinearTriple])⟩

/-- C5 counterexample: applied to the canonical corners in the order the claim
lists them, (-0.5,-0.5), (0.5,-0.5), (0.5,0.5), (-0.5,0.5), `squareHomography`
returns the rotation by 90 degrees - that order is a cyclic shift of the
winding order the implementation fixes for its implicit source square (the
order its own test feeds it) - and no scaling of the identity matrix is within
1e-6 of that rotation. -/
theorem squareHomography_claim_order_not_identity :
    squareHomography
        [(-(1 / 2 : ℚ), -(1 / 2)), (1 / 2, -(1 / 2)), (1 / 2, 1 / 2),
         (-(1 / 2), 1 / 2)] =
      some (Matrix.of ![![0, -1, 0], ![1, 0, 0], ![0, 0, 1]]) ∧
    ¬∃ s : ℚ, ∀ i j,
      |(Matrix.of ![![(0 : ℚ), -1, 0], ![1, 0, 0], ![0, 0, 1]]) i j -
        s * (1 : Mat3Q) i j| ≤ 1 / 1000000 := by
  constructor
  · norm_num [squareHomography, squareHomographyRows, squareCorners,
      gaussSolve, pickRow, reduceRow, dotL]
  · rintro ⟨s, hs⟩
    have h10 := hs 1 0
    norm_num [Matrix.one_apply] at h10

/-- C5 amended: `squareHomography` applied to the canonical unit square's own
corners, taken in the winding order the implementation uses for its implicit
source square, (-0.5,0.5), (-0.5,-0.5), (0.5,-0.5), (0.5,0.5), returns the
3x3 identity matrix exactly (hence within the 1e-6 tolerance and under the
bottom-right-entry scale normalization). -/
theorem squareHomography_canonical_corners_identity :
    squareHomography squareCorners = some (1 : Mat3Q) := by
  norm_num [squareHomography, squareHomographyRows, squareCorners,
    gaussSolve, pickRow, reduceRow, dotL]
  ext i j
  fin_cases i <;> fin_cases j <;>
    simp [Matrix.one_apply, Fin.ext_iff, Matrix.vecHead, Matrix.vecTail]

/-- The dot product of a real 3-vector with itself is nonnegative. -/
theorem dotProduct_self_nonneg3 (v : Vec3) : 0 ≤ v ⬝ᵥ v :=
  Finset.sum_nonneg fun i _ => mul_self_nonneg (v i)

/-- `nrm v` squared recovers the dot product. -/
theorem nrm_mul_self (v : Vec3) : nrm v * nrm v = v ⬝ᵥ v :=
  Real.mul_self_sqrt (dotProduct_self_nonneg3 v)

/-- A vector with nonzero norm normalizes to unit length. -/
theorem unitize_dot_self {v : Vec3} (h : nrm v ≠ 0) :
    unitize v ⬝ᵥ unitize v = 1 := by
  unfold unitize
  rw [Matrix.smul_dotProduct, Matrix.dotProduct_smul, smul_eq_mul, smul_eq_mul,
    ← nrm_mul_self v]
  field_simp

/-- The two axes of the symmetric orthogonalization are orthogonal: `d` is a
scaling of a cross product having `c` as its first factor. -/
theorem cVec_dot_dVec (M : Mat3) : cVec M ⬝ᵥ dVec M = 0 := by
  unfold dVec unitize dRaw
  rw [Matrix.dotProduct_smul, dot_self_cross, smul_zero]

/-- `r1 = (c + d) / sqrt 2` has unit length when `c` and `d` do. -/
theorem r1_dot_r1 (M : Mat3) (hc : cVec M ⬝ᵥ cVec M = 1)
    (hd : dVec M ⬝ᵥ dVec M = 1) : r1Vec M ⬝ᵥ r1Vec M = 1 := by
  have hcd := cVec_dot_dVec M
  have hdc : dVec M ⬝ᵥ cVec M = 0 := by rw [Matrix.dotProduct_comm]; exact hcd
  have h2 : Real.sqrt 2 * Real.sqrt 2 = 2 := Real.mul_self_sqrt (by norm_num)
  unfold r1Vec
  rw [Matrix.smul_dotProduct, Matrix.dotProduct_smul, Matrix.add_dotProduct,
    Matrix.dotProduct_add, Matrix.dotProduct_add, hc, hd, hcd, hdc,
    smul_eq_mul, smul_eq_mul,
    show ((1 : ℝ) + 0 + (0 + 1)) = 2 by norm_num,
    show (Real.sqrt 2)⁻¹ * ((Real.sqrt 2)⁻¹ * 2) =
      (Real.sqrt 2 * Real.sqrt 2)⁻¹ * 2 by ring, h2]
  norm_num

/-- `r2 = (c - d) / sqrt 2` has unit length when `c` and `d` do. -/
theorem r2_dot_r2 (M : Mat3) (hc : cVec M ⬝ᵥ cVec M = 1)
    (hd : dVec M ⬝ᵥ dVec M = 1) : r2Vec M ⬝ᵥ r2Vec M = 1 := by
  have hcd := cVec_dot_dVec M
  have hdc : dVec M ⬝ᵥ cVec M = 0 := by rw [Matrix.dotProduct_comm]; exact hcd
  have h2 : Real.sqrt 2 * Real.sqrt 2 = 2 := Real.mul_self_sqrt (by norm_num)
  unfold r2Vec
  rw [Matrix.smul_dotProduct, Matrix.dotProduct_smul, Matrix.sub_dotProduct,
    Matrix.dotProduct_sub, Matrix.dotProduct_sub, hc, hd, hcd, hdc,
    smul_eq_mul, smul_eq_mul,
    show ((1 : ℝ) - 0 - (0 - 1)) = 2 by norm_num,
    show (Real.sqrt 2)⁻¹ * ((Real.sqrt 2)⁻¹ * 2) =
      (Real.sqrt 2 * Real.sqrt 2)⁻¹ * 2 by ring, h2]
  norm_num

/-- The corrected axes `r1` and `r2` are orthogonal. -/
theorem r1_dot_r2 (M : Mat3) (hc : cVec M ⬝ᵥ cVec M = 1)
    (hd : dVec M ⬝ᵥ dVec M = 1) : r1Vec M ⬝ᵥ r2Vec M = 0 := by
  have hcd := cVec_dot_dVec M
  have hdc : dVec M ⬝ᵥ cVec M = 0 := by rw [Matrix.dotProduct_comm]; exact hcd
  unfold r1Vec r2Vec
  rw [Matrix.smul_dotProduct, Matrix.dotProduct_smul, Matrix.add_dotProduct,
    Matrix.dotProduct_sub, Matrix.dotProduct_sub, hc, hd, hcd, hdc,
    smul_eq_mul, smul_eq_mul]
  norm_num

/-- The Gram matrix of the columns of `colMatrix u v w`. -/
theorem colMatrix_gram (u v w : Vec3) :
    (colMatrix u v w)ᵀ * colMatrix u v w =
      Matrix.of ![![u ⬝ᵥ u, u ⬝ᵥ v, u ⬝ᵥ w],
        ![v ⬝ᵥ u, v ⬝ᵥ v, v ⬝ᵥ w],
        ![w ⬝ᵥ u, w ⬝ᵥ v, w ⬝ᵥ w]] := by
  ext i j
  rw [Matrix.mul_apply]
  fin_cases i <;> fin_cases j <;>
    simp [colMatrix, Matrix.dotProduct, Fin.sum_univ_three,
      Matrix.transpose_apply]

/-- The identity matrix written entrywise. -/
theorem of_identity3 :
    (Matrix.of ![![(1 : ℝ), 0, 0], ![0, 1, 0], ![0, 0, 1]]) = 1 := by
  ext i j
  fin_cases i <;> fin_cases j <;>
    simp [Matrix.one_apply, Fin.ext_iff, Matrix.vecHead, Matrix.vecTail]

/-- An orthonormal pair completed by its cross product yields a rotation
matrix: orthogonal with determinant +1. -/
theorem rot_from_pair (u v : Vec3) (hu : u ⬝ᵥ u = 1) (hv : v ⬝ᵥ v = 1)
    (huv : u ⬝ᵥ v = 0) :
    colMatrix u v (crossProduct u v) * (colMatrix u v (crossProduct u v))ᵀ = 1 ∧
    (colMatrix u v (crossProduct u v)).det = 1 := by
  have hvu : v ⬝ᵥ u = 0 := by rw [Matrix.dotProduct_comm]; exact huv
  have hww : crossProduct u v ⬝ᵥ crossProduct u v = 1 := by
    rw [cross_dot_cross, hu, hv, huv, hvu]; norm_num
  have hu3 : u ⬝ᵥ crossProduct u v = 0 := dot_self_cross u v
  have hv3 : v ⬝ᵥ crossProduct u v = 0 := dot_cross_self u v
  have h3u : crossProduct u v ⬝ᵥ u = 0 := by
    rw [Matrix.dotProduct_comm]; exact hu3
  have h3v : crossProduct u v ⬝ᵥ v = 0 := by
    rw [Matrix.dotProduct_comm]; exact hv3
  have hgram : (colMatrix u v (crossProduct u v))ᵀ *
      colMatrix u v (crossProduct u v) = 1 := by
    rw [colMatrix_gram, hu, hv, huv, hvu, hww, hu3, hv3, h3u, h3v, of_identity3]
  refine ⟨Matrix.mul_eq_one_comm.mp hgram, ?_⟩
  have hT : (colMatrix u v (crossProduct u v))ᵀ = ![u, v, crossProduct u v] := by
    ext i j
    fin_cases i <;> fin_cases j <;> simp [colMatrix, Matrix.transpose_apply]
  rw [← Matrix.det_transpose, hT, ← triple_product_eq_det,
    triple_product_permutation, triple_product_permutation]
  exact hww

/-- Negating the first two columns of an assembled rotation matrix is again an
assembled rotation matrix, for the negated pair (their cross product is
unchanged). -/
theorem negCols01_colMatrix (u v : Vec3) :
    negCols01 (colMatrix u v (crossProduct u v)) =
      colMatrix (-u) (-v) (crossProduct (-u) (-v)) := by
  have hcc : crossProduct (-u) (-v) = crossProduct u v := by
    rw [cross_apply, cross_apply]
    funext i
    fin_cases i <;> simp
  rw [hcc]
  ext i j
  fin_cases i <;> fin_cases j <;> simp [negCols01, colMatrix]

/-- C3: whenever `poseFromHomography` succeeds, the 3x3 matrix form `R` of the
returned rotation satisfies `R * Rᵀ = 1` and `det R = 1` exactly, hence in
particular within the 1e-6 tolerance. -/
theorem poseFromHomography_rotation_orthonormal (H invK R : Mat3) (t : Vec3)
    (h : poseFromHomography H invK = .ok (R, t)) :
    R * Rᵀ = 1 ∧ R.det = 1 := by
  unfold poseFromHomography at h
  split_ifs at h with h1 h2 h3 h4 h5
  all_goals
    rw [Except.ok.injEq, Prod.mk.injEq] at h
    obtain ⟨hR, -⟩ := h
    subst hR
  all_goals
    have hc : cVec (Mof H invK) ⬝ᵥ cVec (Mof H invK) = 1 := unitize_dot_self h3
    have hd : dVec (Mof H invK) ⬝ᵥ dVec (Mof H invK) = 1 := unitize_dot_self h4
    have hr1 := r1_dot_r1 (Mof H invK) hc hd
    have hr2 := r2_dot_r2 (Mof H invK) hc hd
    have hr12 := r1_dot_r2 (Mof H invK) hc hd
    have hpair := rot_from_pair (r1Vec (Mof H invK)) (r2Vec (Mof H invK)) hr1 hr2 hr12
    have hcand : rotCandidate (Mof H invK) =
        colMatrix (r1Vec (Mof H invK)) (r2Vec (Mof H invK))
          (crossProduct (r1Vec (Mof H invK)) (r2Vec (Mof H invK))) := by
      unfold rotCandidate
      rw [if_neg]
      rw [hpair.2]
      norm_num
  · rw [hcand, negCols01_colMatrix]
    have hnu : (-r1Vec (Mof H invK)) ⬝ᵥ (-r1Vec (Mof H invK)) = 1 := by
      rw [Matrix.neg_dotProduct, Matrix.dotProduct_neg, neg_neg]; exact hr1
    have hnv : (-r2Vec (Mof H invK)) ⬝ᵥ (-r2Vec (Mof H invK)) = 1 := by
      rw [Matrix.neg_dotProduct, Matrix.dotProduct_neg, neg_neg]; exact hr2
    have hnuv : (-r1Vec (Mof H invK)) ⬝ᵥ (-r2Vec (Mof H invK)) = 0 := by
      rw [Matrix.neg_dotProduct, Matrix.dotProduct_neg, neg_neg]; exact hr12
    exact rot_from_pair (-r1Vec (Mof H invK)) (-r2Vec (Mof H invK)) hnu hnv hnuv
  · rw [hcand]
    exact hpair

/-- Evaluation of the decomposition at the identity homography and identity
inverse intrinsics: it succeeds with the identity rotation and the unit-depth
translation. -/
theorem poseFromHomography_eval_identity :
    poseFromHomography 1 1 = .ok (1, ![(0 : ℝ), 0, 1]) := by
  have hs2 : Real.sqrt 2 ≠ 0 := by positivity
  have hhalf : (Real.sqrt 2)⁻¹ * (Real.sqrt 2)⁻¹ = (2 : ℝ)⁻¹ := by
    rw [← mul_inv, Real.mul_self_sqrt (by norm_num : (0 : ℝ) ≤ 2)]
  have hM : Mof 1 1 = (1 : Mat3) := by simp [Mof]
  have hcol0 : colv (1 : Mat3) 0 = ![(1 : ℝ), 0, 0] := by
    funext i; fin_cases i <;> simp [colv, Matrix.one_apply]
  have hcol1 : colv (1 : Mat3) 1 = ![(0 : ℝ), 1, 0] := by
    funext i; fin_cases i <;> simp [colv, Matrix.one_apply]
  have hcol2 : colv (1 : Mat3) 2 = ![(0 : ℝ), 0, 1] := by
    funext i; fin_cases i <;> simp [colv, Matrix.one_apply]
  have hn0 : nrm ![(1 : ℝ), 0, 0] = 1 := by
    rw [nrm, show (![(1 : ℝ), 0, 0]) ⬝ᵥ (![(1 : ℝ), 0, 0]) = 1 by
      simp [Matrix.dotProduct, Fin.sum_univ_three], Real.sqrt_one]
  have ha : aVec (1 : Mat3) = ![(1 : ℝ), 0, 0] := by
    rw [aVec, hcol0, unitize, hn0]; simp
  have hb : bVec (1 : Mat3) = ![(0 : ℝ), 1, 0] := by
    rw [bVec, hcol0, hcol1, hn0]; simp
  have hab : aVec (1 : Mat3) + bVec (1 : Mat3) = ![(1 : ℝ), 1, 0] := by
    rw [ha, hb]; funext i; fin_cases i <;> simp
  have hnab : nrm ![(1 : ℝ), 1, 0] = Real.sqrt 2 := by
    rw [nrm, show (![(1 : ℝ), 1, 0]) ⬝ᵥ (![(1 : ℝ), 1, 0]) = 2 by
      simp [Matrix.dotProduct, Fin.sum_univ_three]; norm_num]
  have hc : cVec (1 : Mat3) = (Real.sqrt 2)⁻¹ • ![(1 : ℝ), 1, 0] := by
    rw [cVec, hab, unitize, hnab]
  have hcrossab : crossProduct (aVec (1 : Mat3)) (bVec (1 : Mat3)) =
      ![(0 : ℝ), 0, 1] := by
    rw [ha, hb, cross_apply]; norm_num
  have hcross1 : crossProduct ![(1 : ℝ), 1, 0] ![(0 : ℝ), 0, 1] =
      ![(1 : ℝ), -1, 0] := by
    rw [cross_apply]; norm_num
  have hdraw : dRaw (1 : Mat3) = (Real.sqrt 2)⁻¹ • ![(1 : ℝ), -1, 0] := by
    rw [dRaw, hc, hcrossab, LinearMap.map_smul, LinearMap.smul_apply, hcross1]
  have hdd : ((Real.sqrt 2)⁻¹ • ![(1 : ℝ), -1, 0]) ⬝ᵥ
      ((Real.sqrt 2)⁻¹ • ![(1 : ℝ), -1, 0]) = 1 := by
    rw [Matrix.smul_dotProduct, Matrix.dotProduct_smul, smul_eq_mul, smul_eq_mul,
      show (![(1 : ℝ), -1, 0]) ⬝ᵥ (![(1 : ℝ), -1, 0]) = 2 by
        simp [Matrix.dotProduct, Fin.sum_univ_three]; norm_num,
      show (Real.sqrt 2)⁻¹ * ((Real.sqrt 2)⁻¹ * 2) =
        (Real.sqrt 2)⁻¹ * (Real.sqrt 2)⁻¹ * 2 by ring, hhalf]
    norm_num
  have hndraw : nrm (dRaw (1 : Mat3)) = 1 := by
    rw [nrm, hdraw, hdd, Real.sqrt_one]
  have hdvec : dVec (1 : Mat3) = (Real.sqrt 2)⁻¹ • ![(1 : ℝ), -1, 0] := by
    rw [dVec, unitize, hndraw, hdraw]; simp
  have hr1 : r1Vec (1 : Mat3) = ![(1 : ℝ), 0, 0] := by
    rw [r1Vec, hc, hdvec]
    funext i
    fin_cases i <;>
      simp [Pi.smul_apply, smul_eq_mul, Matrix.vecHead, Matrix.vecTail]
    nlinarith [hhalf]
  have hr2 : r2Vec (1 : Mat3) = ![(0 : ℝ), 1, 0] := by
    rw [r2Vec, hc, hdvec]
    funext i
    fin_cases i <;>
      simp [Pi.smul_apply, smul_eq_mul, Matrix.vecHead, Matrix.vecTail]
    nlinarith [hhalf]
  have hcross12 : crossProduct ![(1 : ℝ), 0, 0] ![(0 : ℝ), 1, 0] =
      ![(0 : ℝ), 0, 1] := by
    rw [cross_apply]; norm_num
  have hcolM : colMatrix ![(1 : ℝ), 0, 0] ![(0 : ℝ), 1, 0] ![(0 : ℝ), 0, 1] = 1 := by
    ext i j
    fin_cases i <;> fin_cases j <;>
      simp [colMatrix, Matrix.one_apply, Fin.ext_iff, Matrix.vecHead,
        Matrix.vecTail]
  have hrot : rotCandidate (1 : Mat3) = 1 := by
    unfold rotCandidate
    dsimp only
    rw [hr1, hr2, hcross12, hcolM]
    simp
  have ht : tVecM (1 : Mat3) = ![(0 : ℝ), 0, 1] := by
    unfold tVecM
    rw [hcol0, hcol2, hn0]
    simp
  unfold poseFromHomography
  rw [hM, hcol0, hn0, hab, hnab, hndraw, ht, hrot]
  norm_num [Matrix.det_one, hs2, Matrix.vecHead, Matrix.vecTail]

/-- C3 witness: the identity homography with identity inverse intrinsics is a
successful call of `poseFromHomography`, and the returned rotation matrix is
orthogonal with determinant one. -/
theorem poseFromHomography_rotation_orthonormal_witness :
    poseFromHomography 1 1 = .ok (1, ![(0 : ℝ), 0, 1]) ∧
    ((1 : Mat3) * (1 : Mat3)ᵀ = 1 ∧ (1 : Mat3).det = 1) :=
  ⟨poseFromHomography_eval_identity,
   poseFromHomography_rotation_orthonormal 1 1 1 ![(0 : ℝ), 0, 1]
     poseFromHomography_eval_identity⟩

/-! ### Exactness of the null-space extraction -/

/-- `dotL` on cons cells. -/
theorem dotL_cons (a b : ℚ) (as bs : List ℚ) :
    dotL (a :: as) (b :: bs) = a * b + dotL as bs := by
  simp [dotL]

/-- `dotL` against a zero vector. -/
theorem dotL_replicate_zero (as : List ℚ) (n : Nat) :
    dotL as (List.replicate n 0) = 0 := by
  induction as generalizing n with
  | nil => simp [dotL]
  | cons a as ih =>
    cases n with
    | zero => simp [dotL]
    | succ n => rw [List.replicate_succ, dotL_cons, ih]; ring

/-- Dividing a row by its pivot rescales dot products by the pivot. -/
theorem dotL_map_div (p : ℚ) (hp : p ≠ 0) (as : List ℚ) :
    ∀ xs : List ℚ, p * dotL (as.map fun a => a / p) xs = dotL as xs := by
  induction as with
  | nil => intro xs; simp [dotL]
  | cons a as ih =>
    intro xs
    cases xs with
    | nil => simp [dotL]
    | cons x xs =>
      rw [List.map_cons, dotL_cons, dotL_cons, mul_add, ih xs,
        show p * (a / p * x) = a * x by field_simp]

/-- Eliminating a leading coefficient with a pivot row acts on dot products as
the corresponding row operation. -/
theorem dotL_zipWith_elim (c : ℚ) (as : List ℚ) :
    ∀ (bs xs : List ℚ), as.length = bs.length →
      dotL (List.zipWith (fun a b => b - c * a) as bs) xs =
        dotL bs xs - c * dotL as xs := by
  induction as with
  | nil =>
    intro bs xs hab
    obtain rfl : bs = [] := List.length_eq_zero.mp hab.symm
    simp [dotL]
  | cons a as ih =>
    intro bs xs hab
    cases bs with
    | nil => simp at hab
    | cons b bs =>
      cases xs with
      | nil => simp [dotL]
      | cons x xs =>
        rw [List.zipWith_cons_cons, dotL_cons, dotL_cons, dotL_cons,
          ih bs xs (by simpa using hab)]
        ring

/-- Specification of `pickRowH`: the pivot is one of the rows, has a nonzero
leading coefficient, and together with the remaining rows covers the input. -/
theorem pickRowH_spec (rows : List (List ℚ)) :
    ∀ (piv : List ℚ) (rest : List (List ℚ)), pickRowH rows = some (piv, rest) →
      piv ∈ rows ∧ (∀ r ∈ rest, r ∈ rows) ∧ (∀ r ∈ rows, r = piv ∨ r ∈ rest) ∧
        ∃ p ps, piv = p :: ps ∧ p ≠ 0 := by
  induction rows with
  | nil => intro piv rest h; simp [pickRowH] at h
  | cons r rs ih =>
    intro piv rest h
    rcases r with _ | ⟨c, cs⟩
    · simp [pickRowH] at h
    · rw [pickRowH] at h
      by_cases hc : c = 0
      · rw [if_neg (by simpa using hc)] at h
        cases hrec : pickRowH rs with
        | none => rw [hrec] at h; simp at h
        | some pr =>
          obtain ⟨p', rest'⟩ := pr
          rw [hrec] at h
          obtain ⟨h1, h2, h3, h4⟩ := ih p' rest' hrec
          obtain ⟨rfl, rfl⟩ : p' = piv ∧ (c :: cs) :: rest' = rest := by
            simpa using h
          refine ⟨List.mem_cons_of_mem _ h1, ?_, ?_, h4⟩
          · intro x hx
            rcases List.mem_cons.mp hx with rfl | hx'
            · exact List.mem_cons_self _ _
            · exact List.mem_cons_of_mem _ (h2 x hx')
          · intro x hx
            rcases List.mem_cons.mp hx with rfl | hx'
            · exact Or.inr (List.mem_cons_self _ _)
            · rcases h3 x hx' with rfl | hx2
              · exact Or.inl rfl
              · exact Or.inr (List.mem_cons_of_mem _ hx2)
      · rw [if_pos hc] at h
        obtain ⟨rfl, rfl⟩ : c :: cs = piv ∧ rs = rest := by simpa using h
        refine ⟨List.mem_cons_self _ _, fun x hx => List.mem_cons_of_mem _ hx,
          ?_, c, cs, rfl, hc⟩
        intro x hx
        rcases List.mem_cons.mp hx with rfl | hx'
        · exact Or.inl rfl
        · exact Or.inr hx'

/-- When `pickRowH` finds no pivot, every (nonempty) row has a zero leading
coefficient. -/
theorem pickRowH_none (rows : List (List ℚ)) :
    (∀ r ∈ rows, r ≠ []) → pickRowH rows = none →
      ∀ c cs, (c :: cs) ∈ rows → c = 0 := by
  induction rows with
  | nil => intro _ _ c cs h; simp at h
  | cons r rs ih =>
    intro hne h c cs hmem
    rcases r with _ | ⟨c0, cs0⟩
    · exact absurd rfl (hne [] (List.mem_cons_self _ _))
    · rw [pickRowH] at h
      by_cases hc : c0 = 0
      · rw [if_neg (by simpa using hc)] at h
        have hrec : pickRowH rs = none := by
          cases hrec : pickRowH rs with
          | none => rfl
          | some pr => obtain ⟨p', r'⟩ := pr; rw [hrec] at h; simp at h
        rcases List.mem_cons.mp hmem with heq | hmem'
        · obtain ⟨rfl, rfl⟩ : c0 = c ∧ cs0 = cs := by simpa using heq.symm
          exact hc
        · exact ih (fun x hx => hne x (List.mem_cons_of_mem _ hx)) hrec c cs hmem'
      · rw [if_pos hc] at h
        simp at h

/-- The echelon pass always yields one column record per column. -/
theorem echelon_length (m : Nat) : ∀ rows, (echelon m rows).length = m := by
  induction m with
  | zero => intro rows; rfl
  | succ n ih =>
    intro rows
    rw [echelon]
    cases hp : pickRowH rows with
    | none => simp [ih]
    | some pr =>
      obtain ⟨piv, rest⟩ := pr
      cases piv with
      | nil => simp [ih]
      | cons p ps => simp [ih]

/-- Back substitution yields one unknown per column record. -/
theorem buildSol_length (cols : List (Option (List ℚ))) :
    ∀ j : Int, (buildSol cols j).length = cols.length := by
  induction cols with
  | nil => intro j; rfl
  | cons o rest ih =>
    intro j
    cases o <;> simp [buildSol, ih]

/-- The vector produced by back substitution annihilates every row of the
homogeneous system: exactness of the elimination. -/
theorem echelon_sol (m : Nat) :
    ∀ (rows : List (List ℚ)), (∀ r ∈ rows, r.length = m) → ∀ (j : Int),
      ∀ r ∈ rows, dotL r (buildSol (echelon m rows) j) = 0 := by
  induction m with
  | zero =>
    intro rows hlen j r hr
    obtain rfl : r = [] := List.length_eq_zero.mp (hlen r hr)
    simp [dotL]
  | succ n ih =>
    intro rows hlen j r hr
    have hne : ∀ r ∈ rows, r ≠ [] := by
      intro r hr h
      subst h
      simpa using hlen _ hr
    cases hp : pickRowH rows with
    | none =>
      obtain ⟨c, cs, rfl⟩ : ∃ c cs, r = c :: cs := by
        cases r with
        | nil => simpa using hlen _ hr
        | cons c cs => exact ⟨c, cs, rfl⟩
      have hc : c = 0 := pickRowH_none rows hne hp c cs hr
      rw [echelon, hp]
      rw [buildSol, dotL_cons, hc]
      have hmem : cs ∈ rows.map (List.drop 1) :=
        List.mem_map.mpr ⟨c :: cs, hr, rfl⟩
      have hlen' : ∀ r' ∈ rows.map (List.drop 1), r'.length = n := by
        intro r' hr'
        obtain ⟨r₀, hr₀, rfl⟩ := List.mem_map.mp hr'
        have := hlen _ hr₀
        simp [List.length_drop, this]
      rw [ih _ hlen' (j - 1) _ hmem]
      ring
    | some pr =>
      obtain ⟨piv, rest⟩ := pr
      rcases pickRowH_spec rows piv rest hp with ⟨hmem, hsub, hcov, p, ps, rfl, hp0⟩
      have hpslen : ps.length = n := by
        have := hlen _ hmem
        simpa using this
      rw [echelon, hp]
      have hlen' : ∀ r' ∈ rest.map (fun r =>
          match r with
          | [] => []
          | c :: cs => List.zipWith (fun a b => b - c * a)
              (ps.map fun a => a / p) cs), r'.length = n := by
        intro r' hr'
        obtain ⟨r₀, hr₀, rfl⟩ := List.mem_map.mp hr'
        obtain ⟨c, cs, rfl⟩ : ∃ c cs, r₀ = c :: cs := by
          cases r₀ with
          | nil => simpa using hlen _ (hsub _ hr₀)
          | cons c cs => exact ⟨c, cs, rfl⟩
        have hcs : cs.length = n := by
          have := hlen _ (hsub _ hr₀)
          simpa using this
        simp [List.length_zipWith, hpslen, hcs]
      rcases hcov r hr with rfl | hr'
      · rw [buildSol, dotL_cons]
        have hdiv := dotL_map_div p hp0 ps
          (buildSol (echelon n (rest.map fun r =>
            match r with
            | [] => []
            | c :: cs => List.zipWith (fun a b => b - c * a)
                (ps.map fun a => a / p) cs)) (j - 1))
        rw [← hdiv]
        ring
      · obtain ⟨c, cs, rfl⟩ : ∃ c cs, r = c :: cs := by
          cases r with
          | nil => simpa using hlen _ hr
          | cons c cs => exact ⟨c, cs, rfl⟩
        have hcs : cs.length = n := by
          have := hlen _ hr
          simpa using this
        have hred : List.zipWith (fun a b => b - c * a) (ps.map fun a => a / p) cs ∈
            rest.map (fun r =>
              match r with
              | [] => []
              | c :: cs => List.zipWith (fun a b => b - c * a)
                  (ps.map fun a => a / p) cs) :=
          List.mem_map.mpr ⟨c :: cs, hr', rfl⟩
        have h0 := ih _ hlen' (j - 1) _ hred
        rw [dotL_zipWith_elim c _ _ _ (by simp [hpslen, hcs])] at h0
        rw [buildSol, dotL_cons]
        set xs := buildSol (echelon n (rest.map fun r =>
          match r with
          | [] => []
          | c :: cs => List.zipWith (fun a b => b - c * a)
              (ps.map fun a => a / p) cs)) (j - 1) with hxs
        have : dotL cs xs = c * dotL (ps.map fun a => a / p) xs := by linarith
        rw [this]
        ring

/-- When every column receives a pivot, the homogeneous system has only the
zero solution. -/
theorem echelon_inj (m : Nat) :
    ∀ (rows : List (List ℚ)), (∀ r ∈ rows, r.length = m) →
      firstFree (echelon m rows) = none →
      ∀ (y : List ℚ), y.length = m → (∀ r ∈ rows, dotL r y = 0) →
        y = List.replicate m 0 := by
  induction m with
  | zero =>
    intro rows _ _ y hy _
    exact List.length_eq_zero.mp hy
  | succ n ih =>
    intro rows hlen hff y hy hnull
    cases hp : pickRowH rows with
    | none =>
      rw [echelon, hp] at hff
      simp [firstFree] at hff
    | some pr =>
      obtain ⟨piv, rest⟩ := pr
      rcases pickRowH_spec rows piv rest hp with ⟨hmem, hsub, hcov, p, ps, rfl, hp0⟩
      have hpslen : ps.length = n := by
        have := hlen _ hmem
        simpa using this
      rw [echelon, hp] at hff
      rw [firstFree] at hff
      have hff' : firstFree (echelon n (rest.map fun r =>
          match r with
          | [] => []
          | c :: cs => List.zipWith (fun a b => b - c * a)
              (ps.map fun a => a / p) cs)) = none := by
        exact Option.map_eq_none'.mp hff
      obtain ⟨y0, ys, rfl⟩ : ∃ y0 ys, y = y0 :: ys := by
        cases y with
        | nil => simp at hy
        | cons y0 ys => exact ⟨y0, ys, rfl⟩
      have hyslen : ys.length = n := by simpa using hy
      have hpivEq := hnull _ hmem
      rw [dotL_cons] at hpivEq
      have hdiv := dotL_map_div p hp0 ps ys
      have hy0 : y0 = -dotL (ps.map fun a => a / p) ys := by
        have hmul : p * y0 = p * (-dotL (ps.map fun a => a / p) ys) := by
          rw [mul_neg, hdiv]
          linarith
        exact mul_left_cancel₀ hp0 hmul
      have hlen' : ∀ r' ∈ rest.map (fun r =>
          match r with
          | [] => []
          | c :: cs => List.zipWith (fun a b => b - c * a)
              (ps.map fun a => a / p) cs), r'.length = n := by
        intro r' hr'
        obtain ⟨r₀, hr₀, rfl⟩ := List.mem_map.mp hr'
        obtain ⟨c, cs, rfl⟩ : ∃ c cs, r₀ = c :: cs := by
          cases r₀ with
          | nil => simpa using hlen _ (hsub _ hr₀)
          | cons c cs => exact ⟨c, cs, rfl⟩
        have hcs : cs.length = n := by
          have := hlen _ (hsub _ hr₀)
          simpa using this
        simp [List.length_zipWith, hpslen, hcs]
      have hys0 : ∀ r' ∈ rest.map (fun r =>
          match r with
          | [] => []
          | c :: cs => List.zipWith (fun a b => b - c * a)
              (ps.map fun a => a / p) cs), dotL r' ys = 0 := by
        intro r' hr'
        obtain ⟨r₀, hr₀, rfl⟩ := List.mem_map.mp hr'
        obtain ⟨c, cs, rfl⟩ : ∃ c cs, r₀ = c :: cs := by
          cases r₀ with
          | nil => simpa using hlen _ (hsub _ hr₀)
          | cons c cs => exact ⟨c, cs, rfl⟩
        have hcs : cs.length = n := by
          have := hlen _ (hsub _ hr₀)
          simpa using this
        have hr0 := hnull _ (hsub _ hr₀)
        rw [dotL_cons, hy0] at hr0
        rw [dotL_zipWith_elim c _ _ _ (by simp [hpslen, hcs])]
        linarith
      have hysrep := ih _ hlen' hff' ys hyslen hys0
      rw [List.replicate_succ, hysrep]
      have : y0 = 0 := by
        rw [hy0, hysrep, dotL_replicate_zero]
        ring
      rw [this]

/-- The first pivot-free column is a genuine column index. -/
theorem firstFree_lt (cols : List (Option (List ℚ))) :
    ∀ j : Nat, firstFree cols = some j → j < cols.length := by
  induction cols with
  | nil => intro j h; simp [firstFree] at h
  | cons o rest ih =>
    intro j h
    cases o with
    | none =>
      obtain rfl : j = 0 := by simpa [firstFree] using h.symm
      simp
    | some c =>
      rw [firstFree] at h
      obtain ⟨j', hj', rfl⟩ := Option.map_eq_some'.mp h
      have := ih j' hj'
      simp
      omega

/-- Back substitution puts 1 at the first free column, so the produced null
vector is nonzero. -/
theorem buildSol_free_entry (cols : List (Option (List ℚ))) :
    ∀ j : Nat, firstFree cols = some j →
      (buildSol cols (j : Int)).getD j 0 = 1 := by
  induction cols with
  | nil => intro j h; simp [firstFree] at h
  | cons o rest ih =>
    intro j h
    cases o with
    | none =>
      obtain rfl : j = 0 := by simpa [firstFree] using h.symm
      simp [buildSol]
    | some c =>
      rw [firstFree] at h
      obtain ⟨j', hj', rfl⟩ := Option.map_eq_some'.mp h
      rw [buildSol]
      rw [show ((j' + 1 : Nat) : Int) - 1 = (j' : Int) by push_cast; ring]
      simpa [List.getD] using ih j' hj'

/-! ### The DLT rows and their projective meaning -/

/-- `dltRows` as a fold of the named constraint rows. -/
theorem dltRows_eq_fold (src dst : List (ℚ × ℚ)) :
    dltRows src dst = (src.zip dst).foldr
      (fun sd acc => dltRowA sd :: dltRowB sd :: acc) [] := rfl

/-- Membership in the folded row list. -/
theorem mem_rowFold (l : List ((ℚ × ℚ) × (ℚ × ℚ))) (r : List ℚ) :
    r ∈ l.foldr (fun sd acc => dltRowA sd :: dltRowB sd :: acc) [] ↔
      ∃ sd ∈ l, r = dltRowA sd ∨ r = dltRowB sd := by
  induction l with
  | nil => simp
  | cons sd l ih =>
    simp only [List.foldr_cons, List.mem_cons, ih, List.mem_cons]
    constructor
    · rintro (rfl | rfl | ⟨sd', hsd', h⟩)
      · exact ⟨sd, Or.inl rfl, Or.inl rfl⟩
      · exact ⟨sd, Or.inl rfl, Or.inr rfl⟩
      · exact ⟨sd', Or.inr hsd', h⟩
    · rintro ⟨sd', hsd' | hsd', rfl | rfl⟩
      · exact Or.inl (by rw [hsd'])
      · exact Or.inr (Or.inl (by rw [hsd']))
      · exact Or.inr (Or.inr ⟨sd', hsd', Or.inl rfl⟩)
      · exact Or.inr (Or.inr ⟨sd', hsd', Or.inr rfl⟩)

/-- Every DLT row carries the 9 unknowns. -/
theorem dltRows_length (src dst : List (ℚ × ℚ)) :
    ∀ r ∈ dltRows src dst, r.length = 9 := by
  intro r hr
  rw [dltRows_eq_fold] at hr
  obtain ⟨sd, -, rfl | rfl⟩ := (mem_rowFold _ _).mp hr
  · simp [dltRowA]
  · simp [dltRowB]

/-- The flattened true homography annihilates the first constraint row of a
correspondence built by perspective division. -/
theorem dotL_rowA_vecOfMat (H : Mat3Q) (p : ℚ × ℚ)
    (hw : (H *ᵥ hatQ p) 2 ≠ 0) :
    dotL (dltRowA (p, projImage H p)) (vecOfMat H) = 0 := by
  simp [dltRowA, vecOfMat, dotL, projImage, hatQ, Matrix.mulVec,
    Matrix.dotProduct, Fin.sum_univ_three] at hw ⊢
  field_simp
  ring

/-- The flattened true homography annihilates the second constraint row. -/
theorem dotL_rowB_vecOfMat (H : Mat3Q) (p : ℚ × ℚ)
    (hw : (H *ᵥ hatQ p) 2 ≠ 0) :
    dotL (dltRowB (p, projImage H p)) (vecOfMat H) = 0 := by
  simp [dltRowB, vecOfMat, dotL, projImage, hatQ, Matrix.mulVec,
    Matrix.dotProduct, Fin.sum_univ_three] at hw ⊢
  field_simp
  ring

/-- A solution of the two constraint rows of a correspondence maps the hatted
source point to a multiple of the hatted destination point. -/
theorem rows_null_proportional (g0 g1 g2 g3 g4 g5 g6 g7 g8 : ℚ) (p d : ℚ × ℚ)
    (hA : dotL (dltRowA (p, d)) [g0, g1, g2, g3, g4, g5, g6, g7, g8] = 0)
    (hB : dotL (dltRowB (p, d)) [g0, g1, g2, g3, g4, g5, g6, g7, g8] = 0) :
    listToMat [g0, g1, g2, g3, g4, g5, g6, g7, g8] *ᵥ hatQ p =
      (listToMat [g0, g1, g2, g3, g4, g5, g6, g7, g8] *ᵥ hatQ p) 2 •
        hatQ d := by
  funext i
  fin_cases i
  · simp [dltRowB, dotL, listToMat, hatQ, Matrix.mulVec, Matrix.dotProduct,
      Fin.sum_univ_three, Pi.smul_apply, smul_eq_mul] at hB ⊢
    linear_combination hB
  · simp [dltRowA, dotL, listToMat, hatQ, Matrix.mulVec, Matrix.dotProduct,
      Fin.sum_univ_three, Pi.smul_apply, smul_eq_mul] at hA ⊢
    linear_combination -hA
  · simp [listToMat, hatQ, Matrix.mulVec, Matrix.dotProduct,
      Fin.sum_univ_three, Pi.smul_apply, smul_eq_mul]

/-- The `H`-image of a hatted source point is the hatted perspective-divided
image scaled by the (nonzero) third coordinate. -/
theorem hat_projImage (H : Mat3Q) (p : ℚ × ℚ) (hw : (H *ᵥ hatQ p) 2 ≠ 0) :
    H *ᵥ hatQ p = (H *ᵥ hatQ p) 2 • hatQ (projImage H p) := by
  funext i
  fin_cases i <;>
    simp [projImage, hatQ, Pi.smul_apply, smul_eq_mul] at hw ⊢ <;>
    field_simp

/-- Two proportionality relations through a common nonzero-scaled vector
compose into an eigen relation. -/
theorem prop_through (u v z : Fin 3 → ℚ) (lam w : ℚ) (hw : w ≠ 0)
    (h1 : u = lam • z) (h2 : v = w • z) : u = (lam / w) • v := by
  rw [h1, h2, smul_smul, div_mul_cancel₀ _ hw]

/-! ### General position forces a one-dimensional null space -/

/-- `colMatrixQ` acts on a vector as the combination of its columns. -/
theorem colMatrixQ_mulVec (a b c x : Fin 3 → ℚ) :
    colMatrixQ a b c *ᵥ x = x 0 • a + x 1 • b + x 2 • c := by
  funext i
  fin_cases i <;>
    simp [colMatrixQ, Matrix.mulVec, Matrix.dotProduct, Fin.sum_univ_three,
      Pi.add_apply, Pi.smul_apply, smul_eq_mul] <;> ring

/-- Multiplication hits the columns of a column matrix. -/
theorem mul_colMatrixQ (M : Mat3Q) (a b c : Fin 3 → ℚ) :
    M * colMatrixQ a b c = colMatrixQ (M *ᵥ a) (M *ᵥ b) (M *ᵥ c) := by
  ext i j
  rw [Matrix.mul_apply]
  fin_cases i <;> fin_cases j <;>
    simp [colMatrixQ, Matrix.mulVec, Matrix.dotProduct, Fin.sum_univ_three]

/-- A column matrix whose third column combines the first two is singular. -/
theorem det_colMatrixQ_comb (u v : Fin 3 → ℚ) (x y : ℚ) :
    (colMatrixQ u v (x • u + y • v)).det = 0 := by
  rw [Matrix.det_fin_three]
  simp [colMatrixQ, Pi.add_apply, Pi.smul_apply, smul_eq_mul]
  ring

/-- The determinant of hatted planar points is their collinearity form. -/
theorem det_colMatrixQ_hat (p q r : ℚ × ℚ) :
    (colMatrixQ (hatQ p) (hatQ q) (hatQ r)).det =
      (q.1 - p.1) * (r.2 - p.2) - (q.2 - p.2) * (r.1 - p.1) := by
  rw [Matrix.det_fin_three]
  simp [colMatrixQ, hatQ]
  ring

/-- A non-collinear triple of planar points has hatted coordinates in general
linear position. -/
theorem collinearTriple_false_det (p q r : ℚ × ℚ)
    (h : collinearTriple p q r = false) :
    (colMatrixQ (hatQ p) (hatQ q) (hatQ r)).det ≠ 0 := by
  rw [det_colMatrixQ_hat]
  intro h0
  rw [collinearTriple, if_pos h0] at h
  simp at h

/-- The zero column matrix. -/
theorem colMatrixQ_zero : colMatrixQ 0 0 0 = (0 : Mat3Q) := by
  ext i j
  fin_cases i <;> fin_cases j <;>
    simp [colMatrixQ, Matrix.vecHead, Matrix.vecTail]

/-- A matrix that rescales the images of four vectors in general position
under an invertible matrix is a scalar multiple of that matrix: the heart of
the rank-8 uniqueness of the noise-free DLT system. -/
theorem scalar_matrix_of_four (Hm G : Mat3Q) (hH : Hm.det ≠ 0)
    (a b c e : Fin 3 → ℚ)
    (dabc : (colMatrixQ a b c).det ≠ 0)
    (dabe : (colMatrixQ a b e).det ≠ 0)
    (dace : (colMatrixQ a c e).det ≠ 0)
    (dbce : (colMatrixQ b c e).det ≠ 0)
    (m1 m2 m3 m4 : ℚ)
    (h1 : G *ᵥ a = m1 • (Hm *ᵥ a)) (h2 : G *ᵥ b = m2 • (Hm *ᵥ b))
    (h3 : G *ᵥ c = m3 • (Hm *ᵥ c)) (h4 : G *ᵥ e = m4 • (Hm *ᵥ e)) :
    G = m1 • Hm := by
  have hPu : IsUnit (colMatrixQ a b c).det := isUnit_iff_ne_zero.mpr dabc
  set cp := (colMatrixQ a b c)⁻¹ *ᵥ e with hcp
  have he : e = cp 0 • a + cp 1 • b + cp 2 • c := by
    have hPe : colMatrixQ a b c *ᵥ cp = e := by
      rw [hcp, Matrix.mulVec_mulVec, Matrix.mul_nonsing_inv _ hPu,
        Matrix.one_mulVec]
    rw [← hPe, colMatrixQ_mulVec]
  have hc0 : cp 0 ≠ 0 := by
    intro h0
    apply dbce
    have he' : e = cp 1 • b + cp 2 • c := by rw [he, h0]; simp
    rw [he']
    exact det_colMatrixQ_comb b c (cp 1) (cp 2)
  have hc1 : cp 1 ≠ 0 := by
    intro h0
    apply dace
    have he' : e = cp 0 • a + cp 2 • c := by rw [he, h0]; simp
    rw [he']
    exact det_colMatrixQ_comb a c (cp 0) (cp 2)
  have hc2 : cp 2 ≠ 0 := by
    intro h0
    apply dabe
    have he' : e = cp 0 • a + cp 1 • b := by rw [he, h0]; simp [add_comm]
    rw [he']
    exact det_colMatrixQ_comb a b (cp 0) (cp 1)
  have hGe : G *ᵥ e =
      cp 0 • m1 • (Hm *ᵥ a) + cp 1 • m2 • (Hm *ᵥ b) + cp 2 • m3 • (Hm *ᵥ c) := by
    rw [he, Matrix.mulVec_add, Matrix.mulVec_add, Matrix.mulVec_smul,
      Matrix.mulVec_smul, Matrix.mulVec_smul, h1, h2, h3]
  have hHe : Hm *ᵥ e =
      cp 0 • (Hm *ᵥ a) + cp 1 • (Hm *ᵥ b) + cp 2 • (Hm *ᵥ c) := by
    rw [he, Matrix.mulVec_add, Matrix.mulVec_add, Matrix.mulVec_smul,
      Matrix.mulVec_smul, Matrix.mulVec_smul]
  have hQu : IsUnit ((Hm * colMatrixQ a b c).det) := by
    rw [Matrix.det_mul]
    exact isUnit_iff_ne_zero.mpr (mul_ne_zero hH dabc)
  have hcomb : (Hm * colMatrixQ a b c) *ᵥ
      ![cp 0 * (m1 - m4), cp 1 * (m2 - m4), cp 2 * (m3 - m4)] = 0 := by
    rw [mul_colMatrixQ, colMatrixQ_mulVec]
    have h4' := h4
    rw [hGe, hHe] at h4'
    funext i
    have hi := congrFun h4' i
    simp only [Pi.add_apply, Pi.smul_apply, smul_eq_mul, Pi.zero_apply,
      Matrix.cons_val_zero, Matrix.cons_val_one, Matrix.head_cons,
      Matrix.cons_val_two, Matrix.tail_cons] at hi ⊢
    linear_combination hi
  have hdz : (![cp 0 * (m1 - m4), cp 1 * (m2 - m4), cp 2 * (m3 - m4)] :
      Fin 3 → ℚ) = 0 := by
    have hstep := congrArg (fun v => (Hm * colMatrixQ a b c)⁻¹ *ᵥ v) hcomb
    simpa [Matrix.mulVec_mulVec, Matrix.nonsing_inv_mul _ hQu,
      Matrix.one_mulVec] using hstep
  have hm1 : m1 = m4 := by
    have := congrFun hdz 0
    simp at this
    rcases this with h | h
    · exact absurd h hc0
    · linarith
  have hm2 : m2 = m4 := by
    have := congrFun hdz 1
    simp at this
    rcases this with h | h
    · exact absurd h hc1
    · linarith
  have hm3 : m3 = m4 := by
    have := congrFun hdz 2
    simp at this
    rcases this with h | h
    · exact absurd h hc2
    · linarith
  have hsubA : (G - m1 • Hm) *ᵥ a = 0 := by
    rw [Matrix.sub_mulVec, Matrix.smul_mulVec_assoc, h1, sub_self]
  have hsubB : (G - m1 • Hm) *ᵥ b = 0 := by
    rw [Matrix.sub_mulVec, Matrix.smul_mulVec_assoc, h2, hm2, ← hm1, sub_self]
  have hsubC : (G - m1 • Hm) *ᵥ c = 0 := by
    rw [Matrix.sub_mulVec, Matrix.smul_mulVec_assoc, h3, hm3, ← hm1, sub_self]
  have hmulP : (G - m1 • Hm) * colMatrixQ a b c = 0 := by
    rw [mul_colMatrixQ, hsubA, hsubB, hsubC, colMatrixQ_zero]
  have hfin : (G - m1 • Hm) * (colMatrixQ a b c * (colMatrixQ a b c)⁻¹) = 0 := by
    rw [← Matrix.mul_assoc, hmulP, Matrix.zero_mul]
  rw [Matrix.mul_nonsing_inv _ hPu, Matrix.mul_one] at hfin
  exact sub_eq_zero.mp hfin

/-- Any list of length 9 is an explicit 9-tuple. -/
theorem list_eq_nine (g : List ℚ) (h : g.length = 9) :
    ∃ g0 g1 g2 g3 g4 g5 g6 g7 g8 : ℚ,
      g = [g0, g1, g2, g3, g4, g5, g6, g7, g8] := by
  rcases g with _ | ⟨g0, g⟩; · simp at h
  rcases g with _ | ⟨g1, g⟩; · simp at h
  rcases g with _ | ⟨g2, g⟩; · simp at h
  rcases g with _ | ⟨g3, g⟩; · simp at h
  rcases g with _ | ⟨g4, g⟩; · simp at h
  rcases g with _ | ⟨g5, g⟩; · simp at h
  rcases g with _ | ⟨g6, g⟩; · simp at h
  rcases g with _ | ⟨g7, g⟩; · simp at h
  rcases g with _ | ⟨g8, g⟩; · simp at h
  rcases g with _ | ⟨g9, g⟩
  · exact ⟨g0, g1, g2, g3, g4, g5, g6, g7, g8, rfl⟩
  · simp at h

/-- A matrix whose flattening is the zero list is the zero matrix. -/
theorem vecOfMat_eq_zero (H : Mat3Q) (h : vecOfMat H = List.replicate 9 0) :
    H = 0 := by
  simp [vecOfMat, List.replicate] at h
  obtain ⟨h00, h01, h02, h10, h11, h12, h20, h21, h22⟩ := h
  ext i j
  fin_cases i <;> fin_cases j <;> simp only [Matrix.zero_apply] <;> assumption

/-- Zipping a list with its own image lists the graph of the function. -/
theorem zip_map_self (f : ℚ × ℚ → ℚ × ℚ) (l : List (ℚ × ℚ)) :
    l.zip (l.map f) = l.map fun a => (a, f a) := by
  induction l with
  | nil => rfl
  | cons a l ih => simp [ih]

/-- In-bounds `getD` values are members. -/
theorem getD_mem_of_lt (l : List (ℚ × ℚ)) (i : Nat) (hi : i < l.length) :
    l.getD i (0, 0) ∈ l := by
  rw [List.getD_eq_getElem l (0, 0) hi]
  exact List.getElem_mem hi

/-- C1: exact noise-free recovery by the DLT solver. For every invertible
homography `H` and every list of at least four planar points, no three of
them collinear and each with a finite image (nonzero third homogeneous
coordinate, so the perspective division that builds the correspondences is
defined), feeding the points and their `H`-images into `homographyDLT`
succeeds and returns `H` up to a nonzero scalar multiple - exactly, which
subsumes the claim's floating-point tolerance at every point count. -/
theorem homographyDLT_exact_recovery (H : Mat3Q) (src : List (ℚ × ℚ))
    (hdet : H.det ≠ 0) (hn : 4 ≤ src.length)
    (hfin : ∀ p ∈ src, (H *ᵥ hatQ p) 2 ≠ 0)
    (hnc : ∀ i j k : Nat, i < j → j < k → k < src.length →
      collinearTriple (src.getD i (0, 0)) (src.getD j (0, 0))
        (src.getD k (0, 0)) = false) :
    ∃ s : ℚ, s ≠ 0 ∧
      homographyDLT src (src.map (projImage H)) = .ok (s • H) := by
  have hzip : src.zip (src.map (projImage H)) =
      src.map fun a => (a, projImage H a) := zip_map_self _ _
  have hrowlen := dltRows_length src (src.map (projImage H))
  have hmemrows : ∀ r ∈ dltRows src (src.map (projImage H)), ∃ p ∈ src,
      r = dltRowA (p, projImage H p) ∨ r = dltRowB (p, projImage H p) := by
    intro r hr
    rw [dltRows_eq_fold] at hr
    obtain ⟨sd, hsd, hor⟩ := (mem_rowFold _ _).mp hr
    rw [hzip] at hsd
    obtain ⟨p, hp, rfl⟩ := List.mem_map.mp hsd
    exact ⟨p, hp, hor⟩
  have hHnull : ∀ r ∈ dltRows src (src.map (projImage H)),
      dotL r (vecOfMat H) = 0 := by
    intro r hr
    obtain ⟨p, hp, rfl | rfl⟩ := hmemrows r hr
    · exact dotL_rowA_vecOfMat H p (hfin p hp)
    · exact dotL_rowB_vecOfMat H p (hfin p hp)
  obtain ⟨j, hj⟩ : ∃ j, firstFree (echelon 9
      (dltRows src (src.map (projImage H)))) = some j := by
    cases hff : firstFree (echelon 9 (dltRows src (src.map (projImage H)))) with
    | some j => exact ⟨j, rfl⟩
    | none =>
      exfalso
      have hrep := echelon_inj 9 _ hrowlen hff (vecOfMat H)
        (by simp [vecOfMat]) hHnull
      have hH0 : H = 0 := vecOfMat_eq_zero H hrep
      rw [hH0] at hdet
      exact hdet (Matrix.det_zero ⟨0⟩)
  obtain ⟨g, hnv, hglen, hgnull, hgentry⟩ :
      ∃ g : List ℚ,
        nullVector (dltRows src (src.map (projImage H))) = some g ∧
        g.length = 9 ∧
        (∀ r ∈ dltRows src (src.map (projImage H)), dotL r g = 0) ∧
        g.getD j 0 = 1 := by
    refine ⟨buildSol (echelon 9 (dltRows src (src.map (projImage H)))) (j : Int),
      ?_, ?_, ?_, ?_⟩
    · rw [nullVector]
      rw [hj]
    · rw [buildSol_length, echelon_length]
    · exact fun r hr => echelon_sol 9 _ hrowlen (j : Int) r hr
    · exact buildSol_free_entry _ j hj
  have hjlt : j < 9 := by
    have := firstFree_lt _ j hj
    rwa [echelon_length] at this
  have hmemi : ∀ i : Nat, i < src.length → src.getD i (0, 0) ∈ src :=
    fun i hi => getD_mem_of_lt src i hi
  have hguard1 : ¬ min src.length (src.map (projImage H)).length < 4 := by
    simp only [List.length_map, min_self]
    omega
  have hguard2 : allCollinear src = false := by
    cases hac : allCollinear src with
    | false => rfl
    | true =>
      exfalso
      have hc012 := hnc 0 1 2 (by norm_num) (by norm_num) (by omega)
      rw [allCollinear] at hac
      have t1 := List.all_eq_true.mp hac _ (hmemi 0 (by omega))
      have t2 := List.all_eq_true.mp t1 _ (hmemi 1 (by omega))
      have t3 := List.all_eq_true.mp t2 _ (hmemi 2 (by omega))
      rw [hc012] at t3
      exact Bool.false_ne_true t3
  have hcall : homographyDLT src (src.map (projImage H)) =
      .ok (listToMat g) := by
    rw [homographyDLT, if_neg hguard1, hguard2]
    simp only [Bool.false_eq_true, if_false]
    rw [hnv]
    rfl
  obtain ⟨g0, g1, g2, g3, g4, g5, g6, g7, g8, rfl⟩ := list_eq_nine g hglen
  have hpair : ∀ p ∈ src,
      listToMat [g0, g1, g2, g3, g4, g5, g6, g7, g8] *ᵥ hatQ p =
        ((listToMat [g0, g1, g2, g3, g4, g5, g6, g7, g8] *ᵥ hatQ p) 2 /
          (H *ᵥ hatQ p) 2) • (H *ᵥ hatQ p) := by
    intro p hp
    have hsd : (p, projImage H p) ∈ src.zip (src.map (projImage H)) := by
      rw [hzip]
      exact List.mem_map.mpr ⟨p, hp, rfl⟩
    have hA : dltRowA (p, projImage H p) ∈
        dltRows src (src.map (projImage H)) := by
      rw [dltRows_eq_fold]
      exact (mem_rowFold _ _).mpr ⟨(p, projImage H p), hsd, Or.inl rfl⟩
    have hB : dltRowB (p, projImage H p) ∈
        dltRows src (src.map (projImage H)) := by
      rw [dltRows_eq_fold]
      exact (mem_rowFold _ _).mpr ⟨(p, projImage H p), hsd, Or.inr rfl⟩
    have hprop := rows_null_proportional g0 g1 g2 g3 g4 g5 g6 g7 g8 p
      (projImage H p) (hgnull _ hA) (hgnull _ hB)
    exact prop_through _ _ _ _ _ (hfin p hp) hprop (hat_projImage H p (hfin p hp))
  have hp1 : src.getD 0 (0, 0) ∈ src := hmemi 0 (by omega)
  have hp2 : src.getD 1 (0, 0) ∈ src := hmemi 1 (by omega)
  have hp3 : src.getD 2 (0, 0) ∈ src := hmemi 2 (by omega)
  have hp4 : src.getD 3 (0, 0) ∈ src := hmemi 3 (by omega)
  have d123 := collinearTriple_false_det _ _ _
    (hnc 0 1 2 (by norm_num) (by norm_num) (by omega))
  have d124 := collinearTriple_false_det _ _ _
    (hnc 0 1 3 (by norm_num) (by norm_num) (by omega))
  have d134 := collinearTriple_false_det _ _ _
    (hnc 0 2 3 (by norm_num) (by norm_num) (by omega))
  have d234 := collinearTriple_false_det _ _ _
    (hnc 1 2 3 (by norm_num) (by norm_num) (by omega))
  have hGs := scalar_matrix_of_four H
    (listToMat [g0, g1, g2, g3, g4, g5, g6, g7, g8]) hdet
    (hatQ (src.getD 0 (0, 0))) (hatQ (src.getD 1 (0, 0)))
    (hatQ (src.getD 2 (0, 0))) (hatQ (src.getD 3 (0, 0)))
    d123 d124 d134 d234 _ _ _ _
    (hpair _ hp1) (hpair _ hp2) (hpair _ hp3) (hpair _ hp4)
  set s := (listToMat [g0, g1, g2, g3, g4, g5, g6, g7, g8] *ᵥ
    hatQ (src.getD 0 (0, 0))) 2 / (H *ᵥ hatQ (src.getD 0 (0, 0))) 2 with hs
  refine ⟨s, ?_, ?_⟩
  · intro hs0
    rw [hs0, zero_smul] at hGs
    have hg0 : g0 = 0 := by simpa [listToMat] using congrFun (congrFun hGs 0) 0
    have hg1 : g1 = 0 := by simpa [listToMat] using congrFun (congrFun hGs 0) 1
    have hg2 : g2 = 0 := by simpa [listToMat] using congrFun (congrFun hGs 0) 2
    have hg3 : g3 = 0 := by simpa [listToMat] using congrFun (congrFun hGs 1) 0
    have hg4 : g4 = 0 := by simpa [listToMat] using congrFun (congrFun hGs 1) 1
    have hg5 : g5 = 0 := by simpa [listToMat] using congrFun (congrFun hGs 1) 2
    have hg6 : g6 = 0 := by simpa [listToMat] using congrFun (congrFun hGs 2) 0
    have hg7 : g7 = 0 := by simpa [listToMat] using congrFun (congrFun hGs 2) 1
    have hg8 : g8 = 0 := by simpa [listToMat] using congrFun (congrFun hGs 2) 2
    interval_cases j <;> simp [List.getD] at hgentry <;>
      simp_all
  · rw [hcall, hGs]

/-- C1 witness: the identity homography and the four points (0,0), (1,0),
(0,1), (1,1) - invertible, all images finite, no three points collinear -
satisfy every hypothesis, and the exact-recovery theorem applies to them. -/
theorem homographyDLT_exact_recovery_witness :
    4 ≤ ([((0 : ℚ), (0 : ℚ)), (1, 0), (0, 1), (1, 1)]).length ∧
    ∃ s : ℚ, s ≠ 0 ∧
      homographyDLT [((0 : ℚ), (0 : ℚ)), (1, 0), (0, 1), (1, 1)]
          ([((0 : ℚ), (0 : ℚ)), (1, 0), (0, 1), (1, 1)].map (projImage 1)) =
        .ok (s • (1 : Mat3Q)) :=
  ⟨by norm_num,
   homographyDLT_exact_recovery 1 [((0 : ℚ), (0 : ℚ)), (1, 0), (0, 1), (1, 1)]
     (by simp)
     (by norm_num)
     (by intro p hp; simp [Matrix.one_mulVec, hatQ])
     (by
       intro i j k hij hjk hk
       simp only [List.length_cons, List.length_nil] at hk
       interval_cases k <;> interval_cases j <;> interval_cases i <;>
         norm_num [collinearTriple, List.getD])⟩

end Ubitrack
